import Mathlib

/-!
Shallow embedding of the ma_blocks block/layout engine
(src/block.rs, src/block_manager.rs, src/constants.rs, src/main.rs).

Scalars that are `f32` in the source are modelled as exact rationals `ℚ`;
`f32::EPSILON` and `f32::MAX` are embedded as the exact rational values of
those floating-point constants.  `Uuid` is modelled as `ℕ`, `HashSet<Uuid>`
as `Finset ℕ`.  Texture handles and pixel data are not modelled: an
animation frame keeps an opaque `image : ℕ` token together with its
duration.
-/

namespace MaBlocks

/-- constants.rs: `BLOCK_PADDING`. -/
def BLOCK_PADDING : ℚ := 4

/-- constants.rs: `MIN_BLOCK_SIZE`. -/
def MIN_BLOCK_SIZE : ℚ := 50

/-- constants.rs: `ROW_QUANTIZATION_HEIGHT`. -/
def ROW_QUANTIZATION_HEIGHT : ℚ := 100

/-- constants.rs: `DEFAULT_GROUP_SIZE`. -/
def DEFAULT_GROUP_SIZE : ℚ := 160

/-- constants.rs: `CANVAS_PADDING`. -/
def CANVAS_PADDING : ℚ := 32

/-- constants.rs: `ALIGN_SPACING`. -/
def ALIGN_SPACING : ℚ := 24

/-- constants.rs: `MIN_CANVAS_INNER_WIDTH = MIN_BLOCK_SIZE + BLOCK_PADDING * 2`. -/
def MIN_CANVAS_INNER_WIDTH : ℚ := MIN_BLOCK_SIZE + BLOCK_PADDING * 2

/-- constants.rs: `MAX_CACHED_ANIMATIONS`. -/
def MAX_CACHED_ANIMATIONS : ℕ := 20

/-- The exact rational value of `f32::MAX` ((2²⁴ − 1)·2¹⁰⁴). -/
def f32MAX : ℚ := (2 ^ 24 - 1) * 2 ^ 104

/-- egui `Vec2`/`Pos2`, with `f32` components modelled as `ℚ`. -/
structure Vec2q where
  x : ℚ
  y : ℚ
deriving DecidableEq

instance : Add Vec2q := ⟨fun a b => ⟨a.x + b.x, a.y + b.y⟩⟩

instance : Sub Vec2q := ⟨fun a b => ⟨a.x - b.x, a.y - b.y⟩⟩

theorem Vec2q.add_def (a b : Vec2q) : a + b = ⟨a.x + b.x, a.y + b.y⟩ := rfl

theorem Vec2q.sub_def (a b : Vec2q) : a - b = ⟨a.x - b.x, a.y - b.y⟩ := rfl

/-- egui `Rect`, given by its min and max corners. -/
structure Rectq where
  min : Vec2q
  max : Vec2q
deriving DecidableEq

/-- egui `Rect::center`. -/
def Rectq.center (r : Rectq) : Vec2q := ⟨(r.min.x + r.max.x) / 2, (r.min.y + r.max.y) / 2⟩

/-- egui `Rect::width`. -/
def Rectq.width (r : Rectq) : ℚ := r.max.x - r.min.x

/-- egui `Rect::height`. -/
def Rectq.height (r : Rectq) : ℚ := r.max.y - r.min.y

/-- egui `Rect::from_center_size`. -/
def Rectq.from_center_size (c size : Vec2q) : Rectq :=
  ⟨⟨c.x - size.x / 2, c.y - size.y / 2⟩, ⟨c.x + size.x / 2, c.y + size.y / 2⟩⟩

/-- egui `Rect::from_min_size`. -/
def Rectq.from_min_size (lo size : Vec2q) : Rectq := ⟨lo, lo + size⟩

/-- image_loader.rs `AnimationFrame`: the pixel buffer is kept as an opaque token. -/
structure Frame where
  image : ℕ
  duration : ℚ
deriving DecidableEq

/-- All scalar fields of block.rs `ImageBlock` (the `BlockPosition`,
`AnimationState` and `GroupData` sub-structures are flattened; the
texture handles, which carry no engine state, are omitted).  The
`children` list lives one level up so that the type can be recursive. -/
structure BlockCore where
  id : ℕ
  path : String
  position : Vec2q
  dragOffset : Vec2q
  isDragging : Bool
  frames : List Frame
  currentFrame : ℕ
  frameElapsed : ℚ
  animationEnabled : Bool
  hasAnimation : Bool
  isGroup : Bool
  groupName : String
  imageSize : Vec2q
  preferredImageSize : Vec2q
  aspect : ℚ
  chained : Bool
  counter : ℤ
  isFullSequence : Bool
deriving DecidableEq

/-- block.rs `ImageBlock`: scalar core plus the recursive `group.children` list. -/
inductive ImageBlock : Type where
  | mk (core : BlockCore) (children : List ImageBlock)

/-- Projection to the scalar fields. -/
def ImageBlock.core : ImageBlock → BlockCore
  | .mk c _ => c

/-- Projection to `group.children`. -/
def ImageBlock.children : ImageBlock → List ImageBlock
  | .mk _ cs => cs

/-- Update only the scalar fields of a block. -/
def ImageBlock.mapCore (f : BlockCore → BlockCore) (b : ImageBlock) : ImageBlock :=
  .mk (f b.core) b.children

/-- Write `pos.position`. -/
def ImageBlock.withPosition (b : ImageBlock) (p : Vec2q) : ImageBlock :=
  b.mapCore fun c => { c with position := p }

/-- Write the `chained` flag. -/
def ImageBlock.withChained (b : ImageBlock) (v : Bool) : ImageBlock :=
  b.mapCore fun c => { c with chained := v }

/-- block.rs `ImageBlock::outer_size`. -/
def ImageBlock.outer_size (b : ImageBlock) : Vec2q :=
  ⟨b.core.imageSize.x + BLOCK_PADDING * 2, b.core.imageSize.y + BLOCK_PADDING * 2⟩

/-- block.rs `ImageBlock::rect`. -/
def ImageBlock.rect (b : ImageBlock) : Rectq :=
  Rectq.from_min_size b.core.position b.outer_size

/-- block.rs `ImageBlock::set_preferred_size`. -/
def ImageBlock.set_preferred_size (b : ImageBlock) (size : Vec2q) : ImageBlock :=
  b.mapCore fun c => { c with preferredImageSize := size, imageSize := size }

/-- block.rs `ImageBlock::reset_to_preferred_size`. -/
def ImageBlock.reset_to_preferred_size (b : ImageBlock) : ImageBlock :=
  b.mapCore fun c => { c with imageSize := c.preferredImageSize }

/-- block.rs `ImageBlock::constrain_to_width`.  Division is exact rational
division (the source divides by the never-zero `aspect_ratio`).  The source
compares against the f32 sum `max_width + f32::EPSILON`; every `max_width`
the program passes here is `reflow`'s `max_image_width`, which its
`inner_width` flooring keeps at `MIN_BLOCK_SIZE = 50` or more, and for any
f32 `m ≥ 50` the ulp of `m` is at least 2⁻¹⁸, so adding
`f32::EPSILON = 2⁻²³ < ulp/2` rounds back to exactly `m`.  The f32
comparison is therefore `image_size.x ≤ max_width`, embedded as such. -/
def ImageBlock.constrain_to_width (b : ImageBlock) (max_width : ℚ) : ImageBlock :=
  if b.core.imageSize.x ≤ max_width then b
  else
    let constrained_width := max max_width 1
    let constrained_height := constrained_width / b.core.aspect
    b.mapCore fun c => { c with imageSize := ⟨constrained_width, constrained_height⟩ }

/-- block.rs `ImageBlock::stop_animation` (the texture re-upload of the first
frame has no engine-visible state and is omitted). -/
def ImageBlock.stop_animation (b : ImageBlock) : ImageBlock :=
  b.mapCore fun c => { c with animationEnabled := false, currentFrame := 0, frameElapsed := 0 }

/-- `Path::new(p).file_name()` modelled as the last `/`-separated component. -/
def fileName (p : String) : String :=
  (p.splitOn "/").getLastD "unnamed"

/-- block.rs `ImageBlock::update_group_name`. -/
def ImageBlock.update_group_name (b : ImageBlock) : ImageBlock :=
  if b.core.isGroup then
    b.mapCore fun c =>
      { c with groupName :=
          if b.children.length > 1 then "Group of " ++ toString b.children.length
          else if b.children.length = 1 then
            "Box: " ++ fileName ((b.children.head?.map fun c => c.core.path).getD "")
          else "Empty Group" }
  else b

/-- block.rs `ImageBlock::new_group` (textures omitted; the fresh `Uuid` is
passed in explicitly as `id` since the engine draws it from an external
generator). -/
def ImageBlock.new_group (name : String) (children : List ImageBlock) (id : ℕ) : ImageBlock :=
  .mk
    { id := id
      path := ""
      position := ⟨0, 0⟩
      dragOffset := ⟨0, 0⟩
      isDragging := false
      frames := []
      currentFrame := 0
      frameElapsed := 0
      animationEnabled := false
      hasAnimation := false
      isGroup := true
      groupName := name
      imageSize := ⟨DEFAULT_GROUP_SIZE, DEFAULT_GROUP_SIZE⟩
      preferredImageSize := ⟨DEFAULT_GROUP_SIZE, DEFAULT_GROUP_SIZE⟩
      aspect := 1
      chained := false
      counter := 0
      isFullSequence := true }
    children

/-- block.rs `ResizeHandle`. -/
inductive ResizeHandle : Type where
  | topLeft
  | topRight
  | bottomLeft
  | bottomRight
deriving DecidableEq

/-- block.rs `InteractionState`. -/
structure InteractionState where
  id : ℕ
  handle : ResizeHandle
  initialMousePos : Vec2q
  initialBlockRect : Rectq
deriving DecidableEq

/-- block.rs `block_index_in_slice`. -/
def block_index_in_slice (blocks : List ImageBlock) (id : ℕ) : Option ℕ :=
  blocks.findIdx? fun b => b.core.id == id

/-- The update applied to every *other* chained block inside
`handle_blocks_resizing`: match the leader's new image height, recompute the
width from the block's own aspect ratio (clamped below by `MIN_BLOCK_SIZE`),
and keep the block centred where it was. -/
def resize_chained_follower (new_height : ℚ) (b : ImageBlock) : ImageBlock :=
  let chained_width := max (new_height * b.core.aspect) MIN_BLOCK_SIZE
  let chained_size : Vec2q := ⟨chained_width, new_height⟩
  let chained_outer_size : Vec2q := chained_size + ⟨BLOCK_PADDING * 2, BLOCK_PADDING * 2⟩
  let original_center := b.rect.center
  let chained_rect := Rectq.from_center_size original_center chained_outer_size
  (b.withPosition chained_rect.min).set_preferred_size chained_size

/-- block.rs `handle_blocks_resizing`.  The source's non-finite/NaN fallback
branch has no counterpart in exact rational arithmetic and is omitted;
divisions by `zoom` and `aspect_ratio` are exact rational division. -/
def handle_blocks_resizing (blocks : List ImageBlock) (resizing_state : InteractionState)
    (curr_mouse_pos : Vec2q) (zoom : ℚ) : List ImageBlock :=
  match block_index_in_slice blocks resizing_state.id with
  | none => blocks
  | some idx =>
    if hidx : idx < blocks.length then
      let leader := blocks.get ⟨idx, hidx⟩
      let delta_world : Vec2q :=
        ⟨(curr_mouse_pos.x - resizing_state.initialMousePos.x) / zoom,
         (curr_mouse_pos.y - resizing_state.initialMousePos.y) / zoom⟩
      let original_center := resizing_state.initialBlockRect.center
      let min_size := MIN_BLOCK_SIZE
      let initial_image_width := resizing_state.initialBlockRect.width - BLOCK_PADDING * 2
      let initial_image_height := resizing_state.initialBlockRect.height - BLOCK_PADDING * 2
      let half_width := initial_image_width * (1 / 2)
      let half_height := initial_image_height * (1 / 2)
      let x_sign : ℚ :=
        match resizing_state.handle with
        | .topLeft | .bottomLeft => -1
        | _ => 1
      let y_sign : ℚ :=
        match resizing_state.handle with
        | .topLeft | .topRight => -1
        | _ => 1
      let target_offset_x := half_width * x_sign + delta_world.x
      let width_from_x := max (2 * |target_offset_x|) min_size
      let target_offset_y := half_height * y_sign + delta_world.y
      let height_from_y := 2 * |target_offset_y|
      let width_from_y := max (height_from_y * leader.core.aspect) min_size
      let new_width0 := if |delta_world.y| ≤ |delta_world.x| then width_from_x else width_from_y
      let new_width := max new_width0 min_size
      let new_height := new_width / leader.core.aspect
      let new_size : Vec2q := ⟨new_width, new_height⟩
      let new_outer_size : Vec2q := new_size + ⟨BLOCK_PADDING * 2, BLOCK_PADDING * 2⟩
      let new_rect := Rectq.from_center_size original_center new_outer_size
      let blocks1 := blocks.set idx ((leader.withPosition new_rect.min).set_preferred_size new_size)
      if leader.core.chained ∧ 1 < (blocks.filter fun b => b.core.chained).length then
        blocks1.mapIdx fun i b =>
          if b.core.chained ∧ i ≠ idx then resize_chained_follower new_height b else b
      else blocks1
    else blocks

/-- A chain-group id set, block_manager.rs `ChainedIds = HashSet<Uuid>`. -/
abbrev ChainedIds := Finset ℕ

/-- block_manager.rs `BlockManager`. -/
structure BlockManager where
  blocks : List ImageBlock
  nextBlockId : ℕ
  rememberedChains : List ChainedIds
  animationAccessOrder : List ℕ

/-- block_manager.rs `BlockManager::chained_count`. -/
def BlockManager.chained_count (bm : BlockManager) : ℕ :=
  (bm.blocks.filter fun b => b.core.chained).length

/-- block_manager.rs `BlockManager::chained_ids`. -/
def BlockManager.chained_ids (bm : BlockManager) : ChainedIds :=
  ((bm.blocks.filter fun b => b.core.chained).map fun b => b.core.id).toFinset

/-- block_manager.rs `BlockManager::can_chain`. -/
def BlockManager.can_chain (bm : BlockManager) : Bool :=
  !bm.blocks.isEmpty

/-- Modify the first element satisfying `p` — the effect of Rust's
`get_mut(id)` followed by an in-place update. -/
def modifyFirst (p : ImageBlock → Bool) (f : ImageBlock → ImageBlock) :
    List ImageBlock → List ImageBlock
  | [] => []
  | a :: as => if p a then f a :: as else a :: modifyFirst p f as

/-- The mutation `purge_animation_frames` applies to its target block:
keep only the first frame, clear the full-sequence flag, stop playback. -/
def purge_block (b : ImageBlock) : ImageBlock :=
  if b.core.isFullSequence ∧ 1 < b.core.frames.length then
    (b.mapCore fun c => { c with frames := c.frames.take 1, isFullSequence := false }).stop_animation
  else b

/-- block_manager.rs `BlockManager::purge_animation_frames`. -/
def BlockManager.purge_animation_frames (bm : BlockManager) (id : ℕ) : BlockManager :=
  { bm with blocks := modifyFirst (fun b => b.core.id == id) purge_block bm.blocks }

/-- block_manager.rs `BlockManager::mark_animation_used`. -/
def BlockManager.mark_animation_used (bm : BlockManager) (id : ℕ) : BlockManager :=
  let order := (bm.animationAccessOrder.filter fun x => x ≠ id) ++ [id]
  if MAX_CACHED_ANIMATIONS < order.length then
    match order with
    | [] => { bm with animationAccessOrder := order }
    | to_purge :: rest =>
      BlockManager.purge_animation_frames { bm with animationAccessOrder := rest } to_purge
  else { bm with animationAccessOrder := order }

/-- block_manager.rs `BlockManager::set_remembered_chains`. -/
def BlockManager.set_remembered_chains (bm : BlockManager) (chains : List ChainedIds) :
    BlockManager :=
  { bm with rememberedChains := chains }

/-- block_manager.rs `BlockManager::clear_chain_group`. -/
def BlockManager.clear_chain_group (bm : BlockManager) : BlockManager :=
  let chained_ids := bm.chained_ids
  let bm1 :=
    if 2 ≤ chained_ids.card then
      { bm with rememberedChains :=
          (bm.rememberedChains.filter fun chain => chain ∩ chained_ids = ∅) ++ [chained_ids] }
    else bm
  { bm1 with blocks := bm1.blocks.map fun b => b.withChained false }

/-- block_manager.rs `BlockManager::toggle_chain`.  The source indexes
`self.blocks[index]` (a panic on an out-of-range index); the out-of-range
case is modelled as a no-op. -/
def BlockManager.toggle_chain (bm : BlockManager) (index : ℕ) : BlockManager :=
  if hidx : index < bm.blocks.length then
    let b := bm.blocks.get ⟨index, hidx⟩
    if bm.can_chain = false ∧ b.core.isGroup = false then bm
    else
      let block_id := b.core.id
      if b.core.chained = false then
        match bm.rememberedChains.find? fun chain => decide (block_id ∈ chain) with
        | some chain_ids =>
          { bm with blocks :=
              bm.blocks.map fun bb =>
                if bb.core.id ∈ chain_ids then bb.withChained true else bb }
        | none => { bm with blocks := bm.blocks.set index (b.withChained true) }
      else { bm with blocks := bm.blocks.set index (b.withChained false) }
  else bm

/-- block_manager.rs inner helper `collect_child_ids`: the ids of all
descendants of a block, in depth-first order. -/
def collect_child_ids : ImageBlock → List ℕ
  | .mk _ children => children.attach.flatMap fun c => c.1.core.id :: collect_child_ids c.1
decreasing_by
  have := List.sizeOf_lt_of_mem c.2
  simp_wf
  omega

/-- block_manager.rs `BlockManager::remove_with_children` (the removed-block
index must be in range in the source; out of range is modelled as a no-op). -/
def BlockManager.remove_with_children (bm : BlockManager) (index : ℕ) :
    BlockManager × List ℕ :=
  if hidx : index < bm.blocks.length then
    let block := bm.blocks.get ⟨index, hidx⟩
    let removed_ids := block.core.id :: collect_child_ids block
    ({ bm with
        blocks := bm.blocks.eraseIdx index
        animationAccessOrder := bm.animationAccessOrder.filter fun x => x ∉ removed_ids },
      removed_ids)
  else (bm, [])

/-- block_manager.rs `BlockManager::remove_cascade`.  The source removes the
chained blocks in descending index order, accumulating each removed block's
id followed by its descendants' ids; that removal order makes the surviving
blocks exactly the non-chained ones (in their original order) and the
accumulated ids those of the chained blocks in reverse collection order. -/
def BlockManager.remove_cascade (bm : BlockManager) (index : ℕ) :
    BlockManager × List ℕ :=
  if hidx : index < bm.blocks.length then
    let block := bm.blocks.get ⟨index, hidx⟩
    if block.core.chained = false then bm.remove_with_children index
    else
      let all_removed_ids :=
        ((bm.blocks.filter fun b => b.core.chained).reverse).flatMap fun b =>
          b.core.id :: collect_child_ids b
      ({ bm with
          blocks := bm.blocks.filter fun b => b.core.chained = false
          rememberedChains :=
            bm.rememberedChains.filter fun chain =>
              chain ∩ all_removed_ids.toFinset = ∅
          animationAccessOrder :=
            bm.animationAccessOrder.filter fun x => x ∉ all_removed_ids },
        all_removed_ids)
  else (bm, [])

/-- Componentwise minimum, as the two `min` updates in `box_chained`. -/
def vecMin (a b : Vec2q) : Vec2q := ⟨min a.x b.x, min a.y b.y⟩

/-- block_manager.rs `BlockManager::box_chained` (textures omitted; the new
group's fresh `Uuid` is the explicit `newId`; `Uuid::nil` is `none`).  The
source removes the chained blocks in descending index order and then
reverses, which collects exactly the chained blocks in collection order and
leaves the non-chained ones; the minimum corner starts from
`(f32::MAX, f32::MAX)`. -/
def BlockManager.box_chained (bm : BlockManager) (newId : ℕ) :
    BlockManager × Option ℕ :=
  let children := bm.blocks.filter fun b => b.core.chained
  if children.isEmpty then (bm, none)
  else
    let remaining := bm.blocks.filter fun b => b.core.chained = false
    let min_pos := children.foldl (fun p b => vecMin p b.core.position) ⟨f32MAX, f32MAX⟩
    let group_block :=
      ((ImageBlock.new_group "" children newId).update_group_name).withPosition min_pos
    ({ bm with
        blocks := group_block :: remaining
        nextBlockId := bm.nextBlockId + 1 },
      some newId)

/-- block_manager.rs `BlockManager::unbox_group` (the source's
`blocks.remove(index)` panics out of range; out of range is modelled as a
no-op).  Inserting child `i` at `insert_idx + i` splices the whole child
list at `insert_idx`. -/
def BlockManager.unbox_group (bm : BlockManager) (index : ℕ) :
    BlockManager × List ℕ :=
  if hidx : index < bm.blocks.length then
    let group := bm.blocks.get ⟨index, hidx⟩
    let blocks1 := bm.blocks.eraseIdx index
    if group.core.isGroup then
      let insert_idx := blocks1.findIdx fun b => !b.core.isGroup
      let kids := group.children.map fun c => c.withChained false
      ({ bm with blocks := blocks1.take insert_idx ++ kids ++ blocks1.drop insert_idx },
        group.children.map fun c => c.core.id)
    else ({ bm with blocks := blocks1 }, [])
  else (bm, [])

/-- One iteration of the cursor/row-height update in
block_manager.rs `BlockManager::reflow`: first the category row break, then
the width row break, yielding the cursor at which the block is placed and
the row height carried into its placement. -/
def placeStep (row_limit : ℚ) (cursor : Vec2q) (row_height : ℚ) (prev_is_group : Option Bool)
    (b : ImageBlock) : Vec2q × ℚ :=
  let s1 : Vec2q × ℚ :=
    match prev_is_group with
    | some prev =>
      if prev ≠ b.core.isGroup ∧ CANVAS_PADDING < cursor.x then
        (⟨CANVAS_PADDING, cursor.y + row_height + ALIGN_SPACING⟩, 0)
      else (cursor, row_height)
    | none => (cursor, row_height)
  let size := b.outer_size
  if row_limit < s1.1.x + size.x then
    (⟨CANVAS_PADDING, s1.1.y + s1.2 + ALIGN_SPACING⟩, 0)
  else s1

/-- The row-packing loop of block_manager.rs `BlockManager::reflow`: place
blocks left to right from `cursor`, tracking the current row height and the
previous block's group/non-group category. -/
def placeLoop (row_limit : ℚ) :
    Vec2q → ℚ → Option Bool → List ImageBlock → List ImageBlock
  | _, _, _, [] => []
  | cursor, row_height, prev_is_group, b :: rest =>
    let s2 := placeStep row_limit cursor row_height prev_is_group b
    b.withPosition s2.1 ::
      placeLoop row_limit ⟨s2.1.x + b.outer_size.x + ALIGN_SPACING, s2.1.y⟩
        (max s2.2 b.outer_size.y) (some b.core.isGroup) rest

/-- block_manager.rs `BlockManager::reflow`. -/
def BlockManager.reflow (bm : BlockManager) (inner_width : ℚ) : BlockManager :=
  let iw := max inner_width MIN_CANVAS_INNER_WIDTH
  let row_limit := CANVAS_PADDING + iw
  let max_image_width := max (iw - BLOCK_PADDING * 2) 1
  let sized := bm.blocks.map fun b => b.reset_to_preferred_size.constrain_to_width max_image_width
  { bm with blocks := placeLoop row_limit ⟨CANVAS_PADDING, CANVAS_PADDING⟩ 0 none sized }

/-- One frame of the drag handling in main.rs `MaBlocksApp::update`: the
dragged block is moved to `new_pos`, and — when it is chained — every other
chained block (compared by id) receives the same position delta. -/
def drag_step (blocks : List ImageBlock) (index : ℕ) (new_pos : Vec2q) : List ImageBlock :=
  if hidx : index < blocks.length then
    let leader := blocks.get ⟨index, hidx⟩
    let old_pos := leader.core.position
    let delta := new_pos - old_pos
    let is_chained := leader.core.chained
    let leader_id := leader.core.id
    let blocks1 := blocks.set index (leader.withPosition new_pos)
    if is_chained then
      blocks1.map fun other =>
        if other.core.chained ∧ other.core.id ≠ leader_id then
          other.withPosition (other.core.position + delta)
        else other
    else blocks1
  else blocks

/-! ### Basic lemmas about the embedding -/

@[simp]
theorem ImageBlock.core_mk (c : BlockCore) (cs : List ImageBlock) :
    (ImageBlock.mk c cs).core = c := rfl

@[simp]
theorem ImageBlock.children_mk (c : BlockCore) (cs : List ImageBlock) :
    (ImageBlock.mk c cs).children = cs := rfl

@[simp]
theorem ImageBlock.core_mapCore (f : BlockCore → BlockCore) (b : ImageBlock) :
    (b.mapCore f).core = f b.core := rfl

@[simp]
theorem ImageBlock.children_mapCore (f : BlockCore → BlockCore) (b : ImageBlock) :
    (b.mapCore f).children = b.children := rfl

theorem ImageBlock.outer_size_withPosition (b : ImageBlock) (p : Vec2q) :
    (b.withPosition p).outer_size = b.outer_size := rfl

theorem Vec2q.add_sub_cancel (v w : Vec2q) : v + (w - v) = w := by
  cases v; cases w
  simp only [Vec2q.add_def, Vec2q.sub_def, Vec2q.mk.injEq]
  constructor <;> ring

theorem List.getElem?_mapIdx' (f : ℕ → ImageBlock → ImageBlock) (l : List ImageBlock) (i : ℕ) :
    (l.mapIdx f)[i]? = Option.map (f i) l[i]? := by
  rcases Nat.lt_or_ge i l.length with h | h
  · have h' : i < (l.mapIdx f).length := by
      rw [List.length_mapIdx]; exact h
    rw [List.getElem?_eq_getElem h', List.getElem?_eq_getElem h]
    have := List.get_mapIdx l f i h h'
    simp only [List.get_eq_getElem] at this
    rw [this, Option.map_some']
  · have h' : (l.mapIdx f).length ≤ i := by
      rw [List.length_mapIdx]; exact h
    rw [List.getElem?_eq_none h', List.getElem?_eq_none h, Option.map_none']

theorem List.find?_append_of_none {p : ChainedIds → Bool} {l₁ l₂ : List ChainedIds}
    (h : l₁.find? p = none) : (l₁ ++ l₂).find? p = l₂.find? p := by
  induction l₁ with
  | nil => rfl
  | cons a t ih =>
    rw [List.find?] at h
    cases hpa : p a with
    | true => simp [hpa] at h
    | false =>
      rw [hpa] at h
      simp only [List.cons_append, List.find?, hpa]
      exact ih h

/-! ### C10: unboxing a non-group block destroys it -/

/-- C10: if `unbox_group` is called with the index of a block whose `is_group`
flag is false, that block is removed from the top-level collection and
discarded entirely — it is re-inserted nowhere and the returned list of
unboxed ids is empty. -/
theorem unbox_group_nongroup_discards (bm : BlockManager) (index : ℕ)
    (hidx : index < bm.blocks.length)
    (hng : (bm.blocks.get ⟨index, hidx⟩).core.isGroup = false) :
    (bm.unbox_group index).1.blocks = bm.blocks.eraseIdx index ∧
    (bm.unbox_group index).2 = [] := by
  unfold BlockManager.unbox_group
  rw [dif_pos hidx]
  simp only [List.get_eq_getElem] at hng
  simp [hng]

/-- A minimal single-image block used by several concrete witnesses. -/
def sampleBlock (id : ℕ) (gr ch : Bool) (pos pref : Vec2q) (aspect : ℚ)
    (frames : List Frame) (fullSeq : Bool) : ImageBlock :=
  .mk
    { id := id
      path := ""
      position := pos
      dragOffset := ⟨0, 0⟩
      isDragging := false
      frames := frames
      currentFrame := 0
      frameElapsed := 0
      animationEnabled := false
      hasAnimation := 1 < frames.length
      isGroup := gr
      groupName := ""
      imageSize := pref
      preferredImageSize := pref
      aspect := aspect
      chained := ch
      counter := 0
      isFullSequence := fullSeq }
    []

/-- Witness for C10 at a concrete one-block collection. -/
theorem unbox_group_nongroup_discards_witness :
    (BlockManager.unbox_group
        ⟨[sampleBlock 1 false false ⟨0, 0⟩ ⟨100, 50⟩ 2 [] true], 5, [], []⟩ 0).1.blocks =
      [sampleBlock 1 false false ⟨0, 0⟩ ⟨100, 50⟩ 2 [] true].eraseIdx 0 ∧
    (BlockManager.unbox_group
        ⟨[sampleBlock 1 false false ⟨0, 0⟩ ⟨100, 50⟩ 2 [] true], 5, [], []⟩ 0).2 = [] :=
  unbox_group_nongroup_discards _ 0 (by simp) rfl

/-! ### C8: disjointness of remembered chains -/

/-- The remembered chains are pairwise disjoint sets of block ids. -/
def chainsDisjoint (l : List ChainedIds) : Prop :=
  l.Pairwise fun s t => s ∩ t = ∅

instance (l : List ChainedIds) : Decidable (chainsDisjoint l) := by
  unfold chainsDisjoint; infer_instance

/-- C8 (amended): clearing a chain group and cascade removal preserve
pairwise disjointness of the remembered chains, while
`set_remembered_chains` installs the given list verbatim — so a session
load preserves disjointness only when the loaded list is itself pairwise
disjoint. -/
theorem remembered_chains_disjoint_preserved (bm : BlockManager) (index : ℕ)
    (chains : List ChainedIds) (h : chainsDisjoint bm.rememberedChains) :
    chainsDisjoint bm.clear_chain_group.rememberedChains ∧
    chainsDisjoint (bm.remove_cascade index).1.rememberedChains ∧
    (bm.set_remembered_chains chains).rememberedChains = chains := by
  refine ⟨?_, ?_, rfl⟩
  · unfold BlockManager.clear_chain_group
    by_cases hcard : 2 ≤ bm.chained_ids.card
    · simp only [hcard, if_true]
      refine List.pairwise_append.mpr ⟨h.filter _, List.pairwise_singleton _ _, ?_⟩
      intro a ha b hb
      rw [List.mem_singleton] at hb
      subst hb
      exact of_decide_eq_true (List.mem_filter.mp ha).2
    · simp only [hcard, if_false]
      exact h
  · unfold BlockManager.remove_cascade
    by_cases hidx : index < bm.blocks.length
    · rw [dif_pos hidx]
      simp only [List.get_eq_getElem]
      by_cases hch : bm.blocks[index].core.chained = false
      · rw [if_pos hch]
        unfold BlockManager.remove_with_children
        rw [dif_pos hidx]
        exact h
      · rw [if_neg hch]
        exact h.filter _
    · rw [dif_neg hidx]; exact h

/-- Witness for C8's theorem at a concrete state with two disjoint
remembered chains. -/
theorem remembered_chains_disjoint_preserved_witness :
    chainsDisjoint (BlockManager.clear_chain_group ⟨[], 0, [{1, 2}, {3}], []⟩).rememberedChains ∧
    chainsDisjoint (BlockManager.remove_cascade ⟨[], 0, [{1, 2}, {3}], []⟩ 0).1.rememberedChains ∧
    (BlockManager.set_remembered_chains ⟨[], 0, [{1, 2}, {3}], []⟩ [{5, 6}]).rememberedChains =
      [{5, 6}] :=
  remembered_chains_disjoint_preserved ⟨[], 0, [{1, 2}, {3}], []⟩ 0 [{5, 6}] (by decide)

/-- Counterexample to C8 as stated: `set_remembered_chains` (the session
load path) does not enforce disjointness — loading two overlapping chains
leaves the remembered-chain list non-disjoint. -/
theorem set_remembered_chains_overlap_counterexample :
    ¬ chainsDisjoint
        (BlockManager.set_remembered_chains ⟨[], 0, [], []⟩
            [{1, 2}, {2, 3}]).rememberedChains := by
  decide

/-! ### C3: chain drag propagation -/

/-- C3: one drag step that moves a chained leader by world-space delta `D`
moves every chained block's position by exactly `D` and leaves every
non-chained block unchanged. -/
theorem drag_chain_propagation (blocks : List ImageBlock) (index : ℕ) (new_pos : Vec2q)
    (hidx : index < blocks.length)
    (hch : (blocks.get ⟨index, hidx⟩).core.chained = true)
    (hnd : (blocks.map fun b => b.core.id).Nodup) :
    (drag_step blocks index new_pos).length = blocks.length ∧
    ∀ j (hj : j < blocks.length),
      (drag_step blocks index new_pos)[j]? =
        some
          (if (blocks.get ⟨j, hj⟩).core.chained = true then
            (blocks.get ⟨j, hj⟩).withPosition
              ((blocks.get ⟨j, hj⟩).core.position +
                (new_pos - (blocks.get ⟨index, hidx⟩).core.position))
          else blocks.get ⟨j, hj⟩) := by
  simp only [List.get_eq_getElem] at hch ⊢
  unfold drag_step
  rw [dif_pos hidx]
  simp only [List.get_eq_getElem, hch, if_true]
  constructor
  · simp
  · intro j hj
    rw [List.getElem?_map]
    by_cases hji : j = index
    · subst hji
      rw [List.getElem?_set_eq_of_lt _ hidx, Option.map_some']
      have hidem : (blocks[j].withPosition new_pos).core.chained = blocks[j].core.chained ∧
          (blocks[j].withPosition new_pos).core.id = blocks[j].core.id := ⟨rfl, rfl⟩
      simp only [hch, if_true]
      simp only [ImageBlock.withPosition, ImageBlock.mapCore, ImageBlock.core_mk,
        ImageBlock.children_mk, hch, ne_eq, not_true_eq_false, and_false, if_false]
      rw [Vec2q.add_sub_cancel]
    · rw [List.getElem?_set_ne (fun h => hji h.symm), List.getElem?_eq_getElem hj,
        Option.map_some']
      have hne : blocks[j].core.id ≠ blocks[index].core.id := by
        intro hEq
        apply hji
        have hj' : j < (blocks.map fun b => b.core.id).length := by simpa using hj
        have hI' : index < (blocks.map fun b => b.core.id).length := by simpa using hidx
        have hgm : (blocks.map fun b => b.core.id).get ⟨j, hj'⟩ =
            (blocks.map fun b => b.core.id).get ⟨index, hI'⟩ := by
          simp only [List.get_eq_getElem, List.getElem_map]
          exact hEq
        have := hnd.get_inj_iff.mp hgm
        exact congrArg Fin.val this
      by_cases hcj : blocks[j].core.chained = true
      · simp only [hcj, if_true, ne_eq, hne, not_false_eq_true, and_true]
      · simp only [hcj, if_false]
        simp only [Bool.not_eq_true] at hcj
        simp only [hcj, Bool.false_eq_true, false_and, if_false]

/-- Witness for C3: a three-block chain where the leader at index 0 is
dragged to a new position. -/
theorem drag_chain_propagation_witness :
    (drag_step
          [sampleBlock 1 false true ⟨10, 10⟩ ⟨50, 50⟩ 1 [] true,
            sampleBlock 2 false true ⟨70, 10⟩ ⟨50, 50⟩ 1 [] true,
            sampleBlock 3 false false ⟨130, 10⟩ ⟨50, 50⟩ 1 [] true] 0 ⟨25, 40⟩).length =
      3 ∧
    ∀ j (hj : j < 3),
      (drag_step
          [sampleBlock 1 false true ⟨10, 10⟩ ⟨50, 50⟩ 1 [] true,
            sampleBlock 2 false true ⟨70, 10⟩ ⟨50, 50⟩ 1 [] true,
            sampleBlock 3 false false ⟨130, 10⟩ ⟨50, 50⟩ 1 [] true] 0 ⟨25, 40⟩)[j]? =
        some
          (if ([sampleBlock 1 false true ⟨10, 10⟩ ⟨50, 50⟩ 1 [] true,
                  sampleBlock 2 false true ⟨70, 10⟩ ⟨50, 50⟩ 1 [] true,
                  sampleBlock 3 false false ⟨130, 10⟩ ⟨50, 50⟩ 1 [] true].get
                ⟨j, hj⟩).core.chained = true then
            ([sampleBlock 1 false true ⟨10, 10⟩ ⟨50, 50⟩ 1 [] true,
                sampleBlock 2 false true ⟨70, 10⟩ ⟨50, 50⟩ 1 [] true,
                sampleBlock 3 false false ⟨130, 10⟩ ⟨50, 50⟩ 1 [] true].get
              ⟨j, hj⟩).withPosition
              (([sampleBlock 1 false true ⟨10, 10⟩ ⟨50, 50⟩ 1 [] true,
                    sampleBlock 2 false true ⟨70, 10⟩ ⟨50, 50⟩ 1 [] true,
                    sampleBlock 3 false false ⟨130, 10⟩ ⟨50, 50⟩ 1 [] true].get
                  ⟨j, hj⟩).core.position +
                (⟨25, 40⟩ -
                  ([sampleBlock 1 false true ⟨10, 10⟩ ⟨50, 50⟩ 1 [] true,
                      sampleBlock 2 false true ⟨70, 10⟩ ⟨50, 50⟩ 1 [] true,
                      sampleBlock 3 false false ⟨130, 10⟩ ⟨50, 50⟩ 1 [] true].get
                    ⟨0, by norm_num⟩).core.position))
          else
            [sampleBlock 1 false true ⟨10, 10⟩ ⟨50, 50⟩ 1 [] true,
                sampleBlock 2 false true ⟨70, 10⟩ ⟨50, 50⟩ 1 [] true,
                sampleBlock 3 false false ⟨130, 10⟩ ⟨50, 50⟩ 1 [] true].get
              ⟨j, hj⟩) :=
  drag_chain_propagation _ 0 ⟨25, 40⟩ (by norm_num) rfl (by
    simp [sampleBlock])

/-! ### C5: remembered chain round trip -/

theorem mem_chained_ids {bm : BlockManager} {x : ℕ} :
    x ∈ bm.chained_ids ↔ ∃ blk ∈ bm.blocks, blk.core.chained = true ∧ blk.core.id = x := by
  unfold BlockManager.chained_ids
  simp only [List.mem_toFinset, List.mem_map, List.mem_filter]
  constructor
  · rintro ⟨blk, ⟨hm, hc⟩, hid⟩
    exact ⟨blk, hm, hc, hid⟩
  · rintro ⟨blk, hm, hc, hid⟩
    exact ⟨blk, ⟨hm, hc⟩, hid⟩

/-- C5: if `{a, b, c}` are exactly the chained blocks, then after
`clear_chain_group` (which records them as a remembered chain) a single
`toggle_chain` on the block with id `a` re-chains every block whose id is in
`{a, b, c}`. -/
theorem remembered_chain_round_trip (bm : BlockManager) (a b c : ℕ) (idxA : ℕ)
    (hab : a ≠ b) (hbc : b ≠ c)
    (hch : ∀ blk ∈ bm.blocks, (blk.core.chained = true ↔ blk.core.id ∈ ({a, b, c} : Finset ℕ)))
    (hA : ∃ blk ∈ bm.blocks, blk.core.id = a)
    (hB : ∃ blk ∈ bm.blocks, blk.core.id = b)
    (hC : ∃ blk ∈ bm.blocks, blk.core.id = c)
    (hidx : idxA < bm.blocks.length)
    (hida : (bm.blocks.get ⟨idxA, hidx⟩).core.id = a) :
    ∀ blk ∈ (bm.clear_chain_group.toggle_chain idxA).blocks,
      blk.core.id ∈ ({a, b, c} : Finset ℕ) → blk.core.chained = true := by
  have hcids : bm.chained_ids = {a, b, c} := by
    ext x
    rw [mem_chained_ids]
    constructor
    · rintro ⟨blk, hm, hc, hid⟩
      rw [← hid]
      exact (hch blk hm).mp hc
    · intro hx
      simp only [Finset.mem_insert, Finset.mem_singleton] at hx
      rcases hx with hx | hx | hx
      · obtain ⟨blk, hm, hid⟩ := hA
        exact ⟨blk, hm, (hch blk hm).mpr (by simp [hid, hx]), by rw [hid, hx]⟩
      · obtain ⟨blk, hm, hid⟩ := hB
        exact ⟨blk, hm, (hch blk hm).mpr (by simp [hid, hx]), by rw [hid, hx]⟩
      · obtain ⟨blk, hm, hid⟩ := hC
        exact ⟨blk, hm, (hch blk hm).mpr (by simp [hid, hx]), by rw [hid, hx]⟩
  have hcard : 2 ≤ bm.chained_ids.card := by
    rw [hcids]
    exact Finset.one_lt_card.mpr ⟨a, by simp, b, by simp, hab⟩
  have hblocks2 : bm.clear_chain_group.blocks = bm.blocks.map fun blk => blk.withChained false := by
    simp [BlockManager.clear_chain_group, hcard]
  have hchains2 : bm.clear_chain_group.rememberedChains =
      (bm.rememberedChains.filter fun chain => decide (chain ∩ bm.chained_ids = ∅)) ++
        [bm.chained_ids] := by
    simp [BlockManager.clear_chain_group, hcard]
  have hidx2 : idxA < bm.clear_chain_group.blocks.length := by
    rw [hblocks2, List.length_map]
    exact hidx
  have hb2 : bm.clear_chain_group.blocks.get ⟨idxA, hidx2⟩ =
      (bm.blocks.get ⟨idxA, hidx⟩).withChained false := by
    simp only [List.get_eq_getElem, hblocks2, List.getElem_map]
  have hid2 : (bm.clear_chain_group.blocks.get ⟨idxA, hidx2⟩).core.id = a := by
    rw [hb2]; exact hida
  have hb2c : (bm.clear_chain_group.blocks.get ⟨idxA, hidx2⟩).core.chained = false := by
    rw [hb2]; rfl
  have hcc : bm.clear_chain_group.can_chain = true := by
    cases hcg : bm.clear_chain_group.blocks with
    | nil => rw [hcg] at hidx2; simp at hidx2
    | cons x xs => simp [BlockManager.can_chain, hcg]
  have hacids : a ∈ bm.chained_ids := by rw [hcids]; simp
  have hfind : bm.clear_chain_group.rememberedChains.find?
      (fun chain => decide (a ∈ chain)) = some bm.chained_ids := by
    rw [hchains2]
    rw [List.find?_append_of_none]
    · rw [List.find?]
      rw [decide_eq_true hacids]
    · rw [List.find?_eq_none]
      intro chain hchain hdec
      have hdisj : chain ∩ bm.chained_ids = ∅ :=
        of_decide_eq_true (List.mem_filter.mp hchain).2
      have hmem : a ∈ chain ∩ bm.chained_ids :=
        Finset.mem_inter.mpr ⟨of_decide_eq_true hdec, hacids⟩
      rw [hdisj] at hmem
      exact Finset.not_mem_empty a hmem
  have htoggle : (bm.clear_chain_group.toggle_chain idxA).blocks =
      bm.clear_chain_group.blocks.map fun bb =>
        if bb.core.id ∈ bm.chained_ids then bb.withChained true else bb := by
    unfold BlockManager.toggle_chain
    rw [dif_pos hidx2]
    rw [if_neg (by rw [hcc]; simp)]
    rw [if_pos hb2c]
    rw [hid2, hfind]
  intro blk hblk hidmem
  rw [htoggle] at hblk
  obtain ⟨bb, hbb, hblkEq⟩ := List.mem_map.mp hblk
  by_cases hbbid : bb.core.id ∈ bm.chained_ids
  · rw [if_pos hbbid] at hblkEq
    rw [← hblkEq]
    rfl
  · rw [if_neg hbbid] at hblkEq
    rw [← hblkEq] at hidmem
    rw [← hcids] at hidmem
    exact absurd hidmem hbbid

/-- First chained block of the C5 witness. -/
def c5b1 : ImageBlock := sampleBlock 1 false true ⟨0, 0⟩ ⟨50, 50⟩ 1 [] true

/-- Second chained block of the C5 witness. -/
def c5b2 : ImageBlock := sampleBlock 2 false true ⟨60, 0⟩ ⟨50, 50⟩ 1 [] true

/-- Third chained block of the C5 witness. -/
def c5b3 : ImageBlock := sampleBlock 3 false true ⟨120, 0⟩ ⟨50, 50⟩ 1 [] true

/-- Manager of the C5 witness: blocks 1, 2, 3 all chained. -/
def c5BM : BlockManager := ⟨[c5b1, c5b2, c5b3], 0, [], []⟩

/-- Block 2 after the clear-then-toggle round trip: unchained by the clear,
re-chained when toggling block 1 restores the remembered chain. -/
def c5final : ImageBlock := (c5b2.withChained false).withChained true

theorem c5_eval : ((BlockManager.clear_chain_group c5BM).toggle_chain 0).blocks =
    [(c5b1.withChained false).withChained true, c5final,
      (c5b3.withChained false).withChained true] := by
  rfl

/-- Witness for C5: after clearing the chain `{1, 2, 3}` and toggling block
1, block 2 is a member of the collection and is chained again. -/
theorem remembered_chain_round_trip_witness :
    c5final ∈ ((BlockManager.clear_chain_group c5BM).toggle_chain 0).blocks ∧
    c5final.core.chained = true :=
  ⟨by rw [c5_eval]; simp,
    remembered_chain_round_trip c5BM 1 2 3 0 (by decide) (by decide)
      (by intro blk hblk; simp only [c5BM] at hblk; fin_cases hblk <;>
        simp [c5b1, c5b2, c5b3, sampleBlock])
      ⟨c5b1, by simp [c5BM], rfl⟩ ⟨c5b2, by simp [c5BM], rfl⟩ ⟨c5b3, by simp [c5BM], rfl⟩
      (by simp [c5BM]) rfl c5final (by rw [c5_eval]; simp) (by decide)⟩

/-! ### C7: chained resize propagation -/

/-- C7 (amended): when a resize is applied to a chained block and more than
one block is chained, every other chained block's image height is set to
exactly the leader's new height and its width to its own aspect ratio times
that height, **clamped below by `MIN_BLOCK_SIZE`**. -/
theorem resize_chain_height_alignment (blocks : List ImageBlock)
    (rs : InteractionState) (mouse : Vec2q) (zoom : ℚ) (idx : ℕ)
    (hfind : block_index_in_slice blocks rs.id = some idx)
    (hidx : idx < blocks.length)
    (hch : (blocks.get ⟨idx, hidx⟩).core.chained = true)
    (hcount : 1 < (blocks.filter fun b => b.core.chained).length) :
    ∀ lead, (handle_blocks_resizing blocks rs mouse zoom)[idx]? = some lead →
      ∀ j (hj : j < blocks.length), j ≠ idx → (blocks.get ⟨j, hj⟩).core.chained = true →
        (handle_blocks_resizing blocks rs mouse zoom)[j]? =
          some (resize_chained_follower lead.core.imageSize.y (blocks.get ⟨j, hj⟩)) ∧
        (resize_chained_follower lead.core.imageSize.y (blocks.get ⟨j, hj⟩)).core.imageSize =
          ⟨max (lead.core.imageSize.y * (blocks.get ⟨j, hj⟩).core.aspect) MIN_BLOCK_SIZE,
            lead.core.imageSize.y⟩ := by
  intro lead hlead j hj hjne hchj
  simp only [List.get_eq_getElem] at hch hchj ⊢
  simp only [handle_blocks_resizing, hfind, dif_pos hidx, List.get_eq_getElem] at hlead ⊢
  rw [if_pos ⟨hch, hcount⟩] at hlead ⊢
  rw [List.getElem?_mapIdx', List.getElem?_set_eq_of_lt _ hidx, Option.map_some'] at hlead
  simp only [ne_eq, not_true_eq_false, and_false, if_false] at hlead
  rw [List.getElem?_mapIdx', List.getElem?_set_ne (fun h => hjne h.symm),
    List.getElem?_eq_getElem hj, Option.map_some']
  rw [if_pos ⟨hchj, hjne⟩]
  rw [Option.some_inj] at hlead
  constructor
  · rw [← hlead]
    rfl
  · rw [← hlead]
    rfl

/-- Concrete blocks for the C7 witness: a 1:1 leader and a 2:1 follower,
both chained. -/
def resizeWitnessBlocks : List ImageBlock :=
  [sampleBlock 1 false true ⟨0, 0⟩ ⟨100, 100⟩ 1 [] true,
    sampleBlock 2 false true ⟨200, 0⟩ ⟨50, 25⟩ 2 [] true]

/-- Concrete interaction state for the C7 witness. -/
def resizeWitnessState : InteractionState :=
  ⟨1, .bottomRight, ⟨0, 0⟩, ⟨⟨0, 0⟩, ⟨108, 108⟩⟩⟩

/-- The leader of `resizeWitnessBlocks` after the witness resize gesture:
dragged to a 120×120 image recentred on its original centre. -/
def resizeWitnessLead : ImageBlock :=
  ((sampleBlock 1 false true ⟨0, 0⟩ ⟨100, 100⟩ 1 [] true).withPosition
      ⟨-10, -10⟩).set_preferred_size ⟨120, 120⟩

theorem resizeWitnessLead_eval :
    (handle_blocks_resizing resizeWitnessBlocks resizeWitnessState ⟨10, 10⟩ 1)[0]? =
      some resizeWitnessLead := by
  norm_num [handle_blocks_resizing, resizeWitnessBlocks, resizeWitnessState,
    resizeWitnessLead, sampleBlock, block_index_in_slice, resize_chained_follower,
    ImageBlock.set_preferred_size, ImageBlock.withPosition, ImageBlock.mapCore,
    ImageBlock.rect, Rectq.from_center_size, Rectq.from_min_size, Rectq.center, Rectq.width,
    Rectq.height, ImageBlock.outer_size, BLOCK_PADDING, MIN_BLOCK_SIZE, List.mapIdx_eq_ofFn,
    List.findIdx?, List.ofFn_succ, Vec2q.add_def, Vec2q.sub_def]

/-- Witness for C7's amended theorem: the chained follower of
`resizeWitnessBlocks` ends the resize at the leader's new height 120 with
its width recomputed from its own 2:1 aspect ratio. -/
theorem resize_chain_height_alignment_witness :
    (handle_blocks_resizing resizeWitnessBlocks resizeWitnessState ⟨10, 10⟩ 1)[1]? =
      some (resize_chained_follower resizeWitnessLead.core.imageSize.y
          (resizeWitnessBlocks.get ⟨1, by norm_num [resizeWitnessBlocks]⟩)) ∧
    (resize_chained_follower resizeWitnessLead.core.imageSize.y
          (resizeWitnessBlocks.get ⟨1, by norm_num [resizeWitnessBlocks]⟩)).core.imageSize =
      ⟨max (resizeWitnessLead.core.imageSize.y *
            (resizeWitnessBlocks.get ⟨1, by norm_num [resizeWitnessBlocks]⟩).core.aspect)
          MIN_BLOCK_SIZE,
        resizeWitnessLead.core.imageSize.y⟩ :=
  resize_chain_height_alignment resizeWitnessBlocks resizeWitnessState ⟨10, 10⟩ 1 0 rfl
    (by norm_num [resizeWitnessBlocks]) rfl (by norm_num [resizeWitnessBlocks, sampleBlock])
    resizeWitnessLead resizeWitnessLead_eval 1 (by norm_num [resizeWitnessBlocks])
    (by norm_num) rfl

/-- Concrete blocks refuting C7 as literally stated: the leader is a 10:1
image resized to height 5, the follower a square image, so the follower's
propagated width is clamped to `MIN_BLOCK_SIZE`. -/
def resizeClampBlocks : List ImageBlock :=
  [sampleBlock 1 false true ⟨0, 0⟩ ⟨50, 5⟩ 10 [] true,
    sampleBlock 2 false true ⟨200, 0⟩ ⟨100, 100⟩ 1 [] true]

/-- Counterexample to C7 as stated: after this resize the leader's new
height is 5, but the follower's width becomes `max (5 * 1) 50 = 50`, not
`5 * 1` — the `MIN_BLOCK_SIZE` clamp breaks the pure
`width = new height × own aspect ratio` formula. -/
theorem resize_chain_width_counterexample :
    ((handle_blocks_resizing resizeClampBlocks ⟨1, .bottomRight, ⟨0, 0⟩, ⟨⟨0, 0⟩, ⟨58, 13⟩⟩⟩
          ⟨0, 0⟩ 1).map fun blk => blk.core.imageSize) =
      [⟨50, 5⟩, ⟨50, 5⟩] ∧
    (50 : ℚ) ≠ 5 * 1 := by
  constructor
  · norm_num [handle_blocks_resizing, resizeClampBlocks, sampleBlock, block_index_in_slice,
      resize_chained_follower, ImageBlock.set_preferred_size, ImageBlock.withPosition,
      ImageBlock.mapCore, ImageBlock.rect, Rectq.from_center_size, Rectq.from_min_size,
      Rectq.center, Rectq.width, Rectq.height, ImageBlock.outer_size, BLOCK_PADDING,
      MIN_BLOCK_SIZE, List.mapIdx_eq_ofFn, List.findIdx?]
  · norm_num

/-! ### C4: LRU animation cache bound and eviction -/

theorem mark_no_purge (bm : BlockManager) (id : ℕ)
    (hnotin : id ∉ bm.animationAccessOrder)
    (hlen : bm.animationAccessOrder.length + 1 ≤ MAX_CACHED_ANIMATIONS) :
    bm.mark_animation_used id =
      { bm with animationAccessOrder := bm.animationAccessOrder ++ [id] } := by
  unfold BlockManager.mark_animation_used
  have hfilter : (bm.animationAccessOrder.filter fun x => x ≠ id) = bm.animationAccessOrder :=
    List.filter_eq_self.mpr fun x hx => decide_eq_true fun hEq => hnotin (hEq ▸ hx)
  rw [hfilter]
  rw [if_neg (by simp only [List.length_append, List.length_singleton]; omega)]

theorem foldl_mark_no_purge (ids : List ℕ) :
    ∀ bm : BlockManager, ids.Nodup → (∀ i ∈ ids, i ∉ bm.animationAccessOrder) →
      bm.animationAccessOrder.length + ids.length ≤ MAX_CACHED_ANIMATIONS →
      ids.foldl BlockManager.mark_animation_used bm =
        { bm with animationAccessOrder := bm.animationAccessOrder ++ ids } := by
  induction ids with
  | nil =>
    intro bm _ _ _
    cases bm
    simp
  | cons id rest ih =>
    intro bm hnd hnotin hlen
    rw [List.foldl_cons]
    rw [mark_no_purge bm id (hnotin id (List.mem_cons_self _ _))
      (by simp only [List.length_cons] at hlen; omega)]
    rw [ih _ hnd.of_cons ?notin ?len]
    · simp
    case notin =>
      intro i hi
      rw [List.mem_append, List.mem_singleton]
      rintro (h | h)
      · exact hnotin i (List.mem_cons_of_mem _ hi) h
      · rw [List.nodup_cons] at hnd
        exact hnd.1 (h ▸ hi)
    case len =>
      simp only [List.length_append, List.length_singleton, List.length_cons,
        List.length_nil] at hlen ⊢
      omega

theorem modifyFirst_eq_map_of_nodup (f : ImageBlock → ImageBlock) (tgt : ℕ) :
    ∀ l : List ImageBlock, (l.map fun b => b.core.id).Nodup →
      modifyFirst (fun b => b.core.id == tgt) f l =
        l.map fun b => if b.core.id = tgt then f b else b := by
  intro l
  induction l with
  | nil => intro _; rfl
  | cons a t ih =>
    intro hnd
    rw [List.map_cons, List.nodup_cons] at hnd
    unfold modifyFirst
    by_cases ha : a.core.id = tgt
    · rw [if_pos (by simp [ha]), List.map_cons, if_pos ha]
      have : (t.map fun b => if b.core.id = tgt then f b else b) = t.map id := by
        apply List.map_congr_left
        intro b hb
        rw [if_neg, id]
        intro hEq
        exact hnd.1 (by rw [ha, ← hEq]; exact List.mem_map_of_mem _ hb)
      rw [this, List.map_id]
    · rw [if_neg (by simp [ha]), List.map_cons, if_neg ha, ih hnd.2]

/-- C4: starting from an empty access-order list, marking
`MAX_CACHED_ANIMATIONS + 1` distinct block ids (each naming a block holding
a full multi-frame sequence) evicts exactly the first-marked block: its
frame list is truncated to its first frame (length 1), its full-sequence
flag is cleared, and its playback is stopped and reset to frame 0; every
other block is unchanged and no block is removed from the collection. -/
theorem lru_cache_eviction (bm : BlockManager) (hd : ℕ) (tl : List ℕ)
    (htl : tl.length = MAX_CACHED_ANIMATIONS)
    (hnd : (hd :: tl).Nodup)
    (hempty : bm.animationAccessOrder = [])
    (hfull : ∀ i ∈ hd :: tl, ∃ blk ∈ bm.blocks, blk.core.id = i ∧
        blk.core.isFullSequence = true ∧ 1 < blk.core.frames.length)
    (hbnd : (bm.blocks.map fun blk => blk.core.id).Nodup) :
    ((hd :: tl).foldl BlockManager.mark_animation_used bm).blocks =
      (bm.blocks.map fun blk => if blk.core.id = hd then purge_block blk else blk) ∧
    ((hd :: tl).foldl BlockManager.mark_animation_used bm).blocks.length =
      bm.blocks.length ∧
    ∀ blk ∈ bm.blocks, blk.core.id = hd → blk.core.isFullSequence = true →
      1 < blk.core.frames.length →
      (purge_block blk).core.frames = blk.core.frames.take 1 ∧
      (purge_block blk).core.frames.length = 1 ∧
      (purge_block blk).core.isFullSequence = false ∧
      (purge_block blk).core.animationEnabled = false ∧
      (purge_block blk).core.currentFrame = 0 ∧
      (purge_block blk).core.frameElapsed = 0 := by
  rcases List.eq_nil_or_concat tl with rfl | ⟨front, lastid, hconcat⟩
  · rw [List.length_nil] at htl
    exact absurd htl.symm (by unfold MAX_CACHED_ANIMATIONS; omega)
  rw [List.concat_eq_append] at hconcat
  subst hconcat
  have hfold20 : ((hd :: front).foldl BlockManager.mark_animation_used bm) =
      { bm with animationAccessOrder := bm.animationAccessOrder ++ (hd :: front) } := by
    apply foldl_mark_no_purge
    · have : (hd :: front).Sublist (hd :: (front ++ [lastid])) := by
        apply List.cons_sublist_cons.mpr
        exact List.sublist_append_left front [lastid]
      exact hnd.sublist this
    · intro i _
      rw [hempty]
      exact List.not_mem_nil i
    · rw [hempty]
      simp only [List.length_nil, List.length_cons, Nat.zero_add]
      rw [List.length_append, List.length_singleton] at htl
      omega
  have hsplit : (hd :: (front ++ [lastid])) = (hd :: front) ++ [lastid] := by simp
  rw [hsplit, List.foldl_append, hfold20, List.foldl_cons, List.foldl_nil]
  have hlast_notin : lastid ∉ hd :: front := by
    have h2 := hnd
    rw [show (hd :: (front ++ [lastid])) = (hd :: front) ++ [lastid] from by simp,
      List.nodup_append] at h2
    intro hmem
    exact h2.2.2 hmem (List.mem_singleton_self _)
  have hmark : BlockManager.mark_animation_used
      { bm with animationAccessOrder := bm.animationAccessOrder ++ (hd :: front) } lastid =
      BlockManager.purge_animation_frames
        { bm with animationAccessOrder := front ++ [lastid] } hd := by
    unfold BlockManager.mark_animation_used
    rw [hempty]
    simp only [List.nil_append]
    have hfilter : ((hd :: front).filter fun x => x ≠ lastid) = hd :: front :=
      List.filter_eq_self.mpr fun x hx => decide_eq_true fun hEq => hlast_notin (hEq ▸ hx)
    rw [hfilter]
    rw [if_pos ?hgt]
    case hgt =>
      simp only [List.length_append, List.length_cons, List.length_singleton]
      rw [List.length_append, List.length_singleton] at htl
      unfold MAX_CACHED_ANIMATIONS at htl ⊢
      omega
    rfl
  rw [hmark]
  unfold BlockManager.purge_animation_frames
  refine ⟨?_, ?_, ?_⟩
  · exact modifyFirst_eq_map_of_nodup purge_block hd bm.blocks hbnd
  · rw [modifyFirst_eq_map_of_nodup purge_block hd bm.blocks hbnd, List.length_map]
  · intro blk _ _ hfullseq hframes
    unfold purge_block
    rw [if_pos ⟨hfullseq, hframes⟩]
    refine ⟨rfl, ?_, rfl, rfl, rfl, rfl⟩
    simp only [ImageBlock.stop_animation, ImageBlock.mapCore, ImageBlock.core_mk,
      List.length_take]
    omega

/-- The last 20 of the 21 distinct ids marked in the C4 witness. -/
def lruTail : List ℕ :=
  [2, 3, 4, 5, 6, 7, 8, 9, 10, 11, 12, 13, 14, 15, 16, 17, 18, 19, 20, 21]

/-- A manager holding 21 two-frame full-sequence blocks with ids 1..21 and
an empty access-order list, for the C4 witness. -/
def lruBM : BlockManager :=
  ⟨(List.range 21).map fun i =>
      sampleBlock (i + 1) false false ⟨0, 0⟩ ⟨50, 50⟩ 1 [⟨0, 1⟩, ⟨1, 1⟩] true,
    0, [], []⟩

/-- Witness for C4 at 21 concrete blocks marked in the order 1..21. -/
theorem lru_cache_eviction_witness :
    ((1 :: lruTail).foldl BlockManager.mark_animation_used lruBM).blocks =
      (lruBM.blocks.map fun blk => if blk.core.id = 1 then purge_block blk else blk) ∧
    ((1 :: lruTail).foldl BlockManager.mark_animation_used lruBM).blocks.length =
      lruBM.blocks.length ∧
    ∀ blk ∈ lruBM.blocks, blk.core.id = 1 → blk.core.isFullSequence = true →
      1 < blk.core.frames.length →
      (purge_block blk).core.frames = blk.core.frames.take 1 ∧
      (purge_block blk).core.frames.length = 1 ∧
      (purge_block blk).core.isFullSequence = false ∧
      (purge_block blk).core.animationEnabled = false ∧
      (purge_block blk).core.currentFrame = 0 ∧
      (purge_block blk).core.frameElapsed = 0 :=
  lru_cache_eviction lruBM 1 lruTail (by decide) (by decide) rfl (by decide) (by decide)

/-! ### C6: box/unbox round trip -/

theorem filter_chained_eq_nil (l : List ImageBlock) (h : ∀ x ∈ l, x.core.chained = false) :
    (l.filter fun b => b.core.chained) = [] := by
  rw [List.filter_eq_nil_iff]
  intro a ha
  simp [h a ha]

theorem filter_unchained_eq_self (l : List ImageBlock) (h : ∀ x ∈ l, x.core.chained = false) :
    (l.filter fun b => b.core.chained = false) = l := by
  rw [List.filter_eq_self]
  intro a ha
  simp [h a ha]

/-- C6: with exactly two non-group blocks chained, `box_chained` removes them
from the top level and creates one new group whose children are exactly
those two blocks in order, positioned at the minimum corner of the absorbed
pair; a following `unbox_group` on that group re-inserts the same two
blocks, in order and unchained, at the boundary between groups and
non-groups. -/
theorem box_unbox_round_trip (bm : BlockManager) (p q r : List ImageBlock)
    (bi bj : ImageBlock) (newId : ℕ)
    (hblocks : bm.blocks = p ++ bi :: (q ++ bj :: r))
    (hci : bi.core.chained = true) (hcj : bj.core.chained = true)
    (hgi : bi.core.isGroup = false) (hgj : bj.core.isGroup = false)
    (hp : ∀ x ∈ p, x.core.chained = false)
    (hq : ∀ x ∈ q, x.core.chained = false)
    (hr : ∀ x ∈ r, x.core.chained = false)
    (hxi : bi.core.position.x ≤ f32MAX) (hyi : bi.core.position.y ≤ f32MAX)
    (hxj : bj.core.position.x ≤ f32MAX) (hyj : bj.core.position.y ≤ f32MAX) :
    ∃ G, (bm.box_chained newId).1.blocks = G :: (p ++ q ++ r) ∧
      (bm.box_chained newId).2 = some newId ∧
      G.children = [bi, bj] ∧
      G.core.isGroup = true ∧
      G.core.id = newId ∧
      G.core.chained = false ∧
      G.core.position = ⟨min bi.core.position.x bj.core.position.x,
        min bi.core.position.y bj.core.position.y⟩ ∧
      ((bm.box_chained newId).1.unbox_group 0).2 = [bi.core.id, bj.core.id] ∧
      ((bm.box_chained newId).1.unbox_group 0).1.blocks =
        (p ++ q ++ r).take ((p ++ q ++ r).findIdx fun b => !b.core.isGroup) ++
          [bi.withChained false, bj.withChained false] ++
          (p ++ q ++ r).drop ((p ++ q ++ r).findIdx fun b => !b.core.isGroup) ∧
      ∀ m, m < ((p ++ q ++ r).findIdx fun b => !b.core.isGroup) →
        ∀ (hm : m < (p ++ q ++ r).length),
          ((p ++ q ++ r).get ⟨m, hm⟩).core.isGroup = true := by
  have hchildren : (bm.blocks.filter fun b => b.core.chained) = [bi, bj] := by
    rw [hblocks]
    simp only [List.filter_append, List.filter_cons, hci, hcj]
    rw [filter_chained_eq_nil p hp, filter_chained_eq_nil q hq, filter_chained_eq_nil r hr]
    simp
  have hrem : (bm.blocks.filter fun b => b.core.chained = false) = p ++ q ++ r := by
    rw [hblocks]
    simp only [List.filter_append, List.filter_cons, hci, hcj]
    rw [filter_unchained_eq_self p hp, filter_unchained_eq_self q hq,
      filter_unchained_eq_self r hr]
    simp [hci, hcj]
  have hminpos :
      ([bi, bj].foldl (fun pos b => vecMin pos b.core.position) ⟨f32MAX, f32MAX⟩) =
        (⟨min bi.core.position.x bj.core.position.x,
          min bi.core.position.y bj.core.position.y⟩ : Vec2q) := by
    simp only [List.foldl_cons, List.foldl_nil, vecMin]
    rw [min_eq_right hxi, min_eq_right hyi]
  have hbox : bm.box_chained newId =
      ({ bm with
          blocks :=
            ((ImageBlock.new_group "" [bi, bj] newId).update_group_name).withPosition
                ([bi, bj].foldl (fun pos b => vecMin pos b.core.position) ⟨f32MAX, f32MAX⟩) ::
              (p ++ q ++ r)
          nextBlockId := bm.nextBlockId + 1 },
        some newId) := by
    unfold BlockManager.box_chained
    rw [hchildren, hrem]
    rfl
  refine ⟨((ImageBlock.new_group "" [bi, bj] newId).update_group_name).withPosition
      ([bi, bj].foldl (fun pos b => vecMin pos b.core.position) ⟨f32MAX, f32MAX⟩),
    by rw [hbox], by rw [hbox], rfl, rfl, rfl, rfl, by rw [hminpos]; rfl, ?_, ?_, ?_⟩
  · rw [hbox]
    unfold BlockManager.unbox_group
    rw [dif_pos (by simp)]
    rfl
  · rw [hbox]
    unfold BlockManager.unbox_group
    rw [dif_pos (by simp)]
    rfl
  · intro m hmk hm
    have := List.not_of_lt_findIdx hmk
    simp only [Bool.not_eq_false'] at this
    simp only [List.get_eq_getElem]
    exact this

/-- First chained block of the C6 witness. -/
def boxBi : ImageBlock := sampleBlock 1 false true ⟨100, 20⟩ ⟨50, 50⟩ 1 [] true

/-- Second chained block of the C6 witness. -/
def boxBj : ImageBlock := sampleBlock 2 false true ⟨10, 80⟩ ⟨50, 50⟩ 1 [] true

/-- Unchained bystander block of the C6 witness. -/
def boxR0 : ImageBlock := sampleBlock 9 false false ⟨300, 0⟩ ⟨50, 50⟩ 1 [] true

/-- Manager for the C6 witness. -/
def boxBM : BlockManager := ⟨[boxBi, boxBj, boxR0], 3, [], []⟩

/-- Witness for C6: boxing the two chained blocks of `boxBM` and unboxing
the resulting group. -/
theorem box_unbox_round_trip_witness :
    ∃ G, (boxBM.box_chained 7).1.blocks = G :: [boxR0] ∧
      (boxBM.box_chained 7).2 = some 7 ∧
      G.children = [boxBi, boxBj] ∧
      G.core.isGroup = true ∧
      G.core.id = 7 ∧
      G.core.chained = false ∧
      G.core.position = ⟨min boxBi.core.position.x boxBj.core.position.x,
        min boxBi.core.position.y boxBj.core.position.y⟩ ∧
      ((boxBM.box_chained 7).1.unbox_group 0).2 = [boxBi.core.id, boxBj.core.id] ∧
      ((boxBM.box_chained 7).1.unbox_group 0).1.blocks =
        [boxR0].take ([boxR0].findIdx fun b => !b.core.isGroup) ++
          [boxBi.withChained false, boxBj.withChained false] ++
          [boxR0].drop ([boxR0].findIdx fun b => !b.core.isGroup) ∧
      ∀ m, m < ([boxR0].findIdx fun b => !b.core.isGroup) →
        ∀ (hm : m < [boxR0].length),
          ([boxR0].get ⟨m, hm⟩).core.isGroup = true :=
  box_unbox_round_trip boxBM [] [] [boxR0] boxBi boxBj 7 rfl rfl rfl rfl rfl
    (by intro x hx; cases hx) (by intro x hx; cases hx)
    (by intro x hx; rw [List.mem_singleton] at hx; subst hx; rfl)
    (by norm_num [boxBi, sampleBlock, f32MAX])
    (by norm_num [boxBi, sampleBlock, f32MAX])
    (by norm_num [boxBj, sampleBlock, f32MAX])
    (by norm_num [boxBj, sampleBlock, f32MAX])

/-! ### C1: reflow width bound -/

theorem placeLoop_right_edge (row_limit : ℚ) :
    ∀ (l : List ImageBlock) (cursor : Vec2q) (rowH : ℚ) (prev : Option Bool),
      (∀ b ∈ l, b.core.imageSize.x + BLOCK_PADDING * 2 ≤ row_limit - CANVAS_PADDING) →
      ∀ placed ∈ placeLoop row_limit cursor rowH prev l,
        placed.core.position.x + placed.core.imageSize.x + BLOCK_PADDING * 2 ≤
          row_limit := by
  intro l
  induction l with
  | nil =>
    intro cursor rowH prev _ placed hplaced
    simp only [placeLoop, List.not_mem_nil] at hplaced
  | cons b rest ih =>
    intro cursor rowH prev hsz placed hplaced
    have hb := hsz b (List.mem_cons_self _ _)
    have htl : ∀ cursor2 rowH2 prev2,
        placed ∈ placeLoop row_limit cursor2 rowH2 prev2 rest →
        placed.core.position.x + placed.core.imageSize.x + BLOCK_PADDING * 2 ≤
          row_limit :=
      fun cursor2 rowH2 prev2 htail =>
        ih cursor2 rowH2 prev2 (fun x hx => hsz x (List.mem_cons_of_mem _ hx)) placed htail
    have hhead_bound : ∀ pos : Vec2q,
        pos.x = CANVAS_PADDING ∨ pos.x + b.outer_size.x ≤ row_limit →
        (b.withPosition pos).core.position.x + (b.withPosition pos).core.imageSize.x +
            BLOCK_PADDING * 2 ≤ row_limit := by
      intro pos hpos
      simp only [ImageBlock.withPosition, ImageBlock.mapCore, ImageBlock.core_mk]
      rcases hpos with h | h
      · rw [h]
        unfold CANVAS_PADDING at hb ⊢
        linarith
      · simp only [ImageBlock.outer_size] at h
        linarith
    rcases prev with _ | pv
    · simp only [placeLoop, placeStep] at hplaced
      try dsimp only at hplaced
      by_cases hw : row_limit < cursor.x + b.outer_size.x
      · rw [if_pos hw] at hplaced
        try dsimp only at hplaced
        rcases List.mem_cons.mp hplaced with hhead | htail
        · subst hhead
          exact hhead_bound _ (Or.inl rfl)
        · exact htl _ _ _ htail
      · rw [if_neg hw] at hplaced
        try dsimp only at hplaced
        push_neg at hw
        rcases List.mem_cons.mp hplaced with hhead | htail
        · subst hhead
          exact hhead_bound _ (Or.inr hw)
        · exact htl _ _ _ htail
    · simp only [placeLoop, placeStep] at hplaced
      try dsimp only at hplaced
      by_cases hbr : pv ≠ b.core.isGroup ∧ CANVAS_PADDING < cursor.x
      · rw [if_pos hbr] at hplaced
        try dsimp only at hplaced
        by_cases hw : row_limit < CANVAS_PADDING + b.outer_size.x
        · rw [if_pos hw] at hplaced
          try dsimp only at hplaced
          rcases List.mem_cons.mp hplaced with hhead | htail
          · subst hhead
            exact hhead_bound _ (Or.inl rfl)
          · exact htl _ _ _ htail
        · rw [if_neg hw] at hplaced
          try dsimp only at hplaced
          push_neg at hw
          rcases List.mem_cons.mp hplaced with hhead | htail
          · subst hhead
            exact hhead_bound _ (Or.inr hw)
          · exact htl _ _ _ htail
      · rw [if_neg hbr] at hplaced
        try dsimp only at hplaced
        by_cases hw : row_limit < cursor.x + b.outer_size.x
        · rw [if_pos hw] at hplaced
          try dsimp only at hplaced
          rcases List.mem_cons.mp hplaced with hhead | htail
          · subst hhead
            exact hhead_bound _ (Or.inl rfl)
          · exact htl _ _ _ htail
        · rw [if_neg hw] at hplaced
          try dsimp only at hplaced
          push_neg at hw
          rcases List.mem_cons.mp hplaced with hhead | htail
          · subst hhead
            exact hhead_bound _ (Or.inr hw)
          · exact htl _ _ _ htail

theorem constrain_width_le (b : ImageBlock) (mw : ℚ) (hmw : 1 ≤ mw) :
    (b.constrain_to_width mw).core.imageSize.x ≤ mw := by
  unfold ImageBlock.constrain_to_width
  by_cases hkeep : b.core.imageSize.x ≤ mw
  · rw [if_pos hkeep]
    exact hkeep
  · rw [if_neg hkeep]
    simp only [ImageBlock.core_mapCore]
    have : max mw 1 = mw := max_eq_left hmw
    rw [this]

/-- C1: after `reflow(inner_width)` — with `inner_width` first floored to
`MIN_CANVAS_INNER_WIDTH` so a row fits at least one minimum-size block —
every block's right edge, its `position.x` plus its outer width
`image_size.x + 2·BLOCK_PADDING`, is at most
`CANVAS_PADDING + inner_width`. -/
theorem reflow_width_bound (bm : BlockManager) (w : ℚ) :
    ∀ blk ∈ (bm.reflow w).blocks,
      blk.core.position.x + blk.core.imageSize.x + BLOCK_PADDING * 2 ≤
        CANVAS_PADDING + max w MIN_CANVAS_INNER_WIDTH := by
  intro blk hblk
  have hblk2 : blk ∈ placeLoop (CANVAS_PADDING + max w MIN_CANVAS_INNER_WIDTH)
      ⟨CANVAS_PADDING, CANVAS_PADDING⟩ 0 none
      (bm.blocks.map fun b =>
        b.reset_to_preferred_size.constrain_to_width
          (max (max w MIN_CANVAS_INNER_WIDTH - BLOCK_PADDING * 2) 1)) := hblk
  refine placeLoop_right_edge _ _ _ _ _ ?_ blk hblk2
  intro b hb
  obtain ⟨a, _, rfl⟩ := List.mem_map.mp hb
  have h1 : (1 : ℚ) ≤ max (max w MIN_CANVAS_INNER_WIDTH - BLOCK_PADDING * 2) 1 := le_max_right _ _
  have h2 := constrain_width_le a.reset_to_preferred_size
    (max (max w MIN_CANVAS_INNER_WIDTH - BLOCK_PADDING * 2) 1) h1
  have h3 : max (max w MIN_CANVAS_INNER_WIDTH - BLOCK_PADDING * 2) 1 =
      max w MIN_CANVAS_INNER_WIDTH - BLOCK_PADDING * 2 := by
    apply max_eq_left
    have : MIN_CANVAS_INNER_WIDTH ≤ max w MIN_CANVAS_INNER_WIDTH := le_max_right _ _
    unfold MIN_CANVAS_INNER_WIDTH MIN_BLOCK_SIZE BLOCK_PADDING at this ⊢
    linarith
  linarith [h2, h3]

/-- Manager of the C1 witness: one 100×50 block. -/
def w1BM : BlockManager :=
  ⟨[sampleBlock 1 false false ⟨0, 0⟩ ⟨100, 50⟩ 2 [] true], 1, [], []⟩

/-- The single block of `w1BM` as placed by `reflow` at inner width 200. -/
def w1Blk : ImageBlock := sampleBlock 1 false false ⟨32, 32⟩ ⟨100, 50⟩ 2 [] true

theorem w1_eval : (BlockManager.reflow w1BM 200).blocks = [w1Blk] := by
  norm_num [BlockManager.reflow, w1BM, w1Blk, sampleBlock, placeLoop, placeStep,
    ImageBlock.reset_to_preferred_size, ImageBlock.constrain_to_width, ImageBlock.outer_size,
    ImageBlock.withPosition, ImageBlock.mapCore, CANVAS_PADDING, MIN_CANVAS_INNER_WIDTH,
    MIN_BLOCK_SIZE, BLOCK_PADDING, ALIGN_SPACING]

/-- Witness for C1: the block of `w1BM` as placed by reflow at inner width
200 respects the right-edge bound. -/
theorem reflow_width_bound_witness :
    w1Blk ∈ (BlockManager.reflow w1BM 200).blocks ∧
    w1Blk.core.position.x + w1Blk.core.imageSize.x + BLOCK_PADDING * 2 ≤
      CANVAS_PADDING + max 200 MIN_CANVAS_INNER_WIDTH :=
  ⟨by rw [w1_eval]; exact List.mem_singleton_self _,
    reflow_width_bound w1BM 200 w1Blk (by rw [w1_eval]; exact List.mem_singleton_self _)⟩

/-! ### C2: category separation in reflow -/

/-- One placement step of `placeLoop`, characterised: the head block is
placed at some `pos` and the loop continues from the cursor just past it. -/
theorem placeLoop_cons_spec (row_limit : ℚ) (cursor : Vec2q) (rowH : ℚ) (prev : Option Bool)
    (b : ImageBlock) (rest : List ImageBlock) (hrh : 0 ≤ rowH) :
    ∃ pos : Vec2q, ∃ rh2 : ℚ,
      placeLoop row_limit cursor rowH prev (b :: rest) =
        b.withPosition pos ::
          placeLoop row_limit ⟨pos.x + b.outer_size.x + ALIGN_SPACING, pos.y⟩
            (max rh2 b.outer_size.y) (some b.core.isGroup) rest ∧
      0 ≤ rh2 ∧
      (pos.x = CANVAS_PADDING ∨ pos.x = cursor.x) ∧
      cursor.y ≤ pos.y ∧
      ∀ pv ∈ prev, pv ≠ b.core.isGroup → CANVAS_PADDING < cursor.x →
        pos.x = CANVAS_PADDING ∧ cursor.y < pos.y := by
  have hAS : ALIGN_SPACING = 24 := rfl
  rcases prev with _ | pv
  · by_cases hw : row_limit < cursor.x + b.outer_size.x
    · refine ⟨⟨CANVAS_PADDING, cursor.y + rowH + ALIGN_SPACING⟩, 0, ?_, le_refl 0,
        Or.inl rfl, by dsimp only; rw [hAS]; linarith, ?_⟩
      · simp only [placeLoop, placeStep]
        try dsimp only
        rw [if_pos hw]
      · intro pv hpv
        cases hpv
    · refine ⟨cursor, rowH, ?_, hrh, Or.inr rfl, le_refl _, ?_⟩
      · simp only [placeLoop, placeStep]
        try dsimp only
        rw [if_neg hw]
      · intro pv hpv
        cases hpv
  · by_cases hbr : pv ≠ b.core.isGroup ∧ CANVAS_PADDING < cursor.x
    · by_cases hw : row_limit < CANVAS_PADDING + b.outer_size.x
      · refine ⟨⟨CANVAS_PADDING, cursor.y + rowH + ALIGN_SPACING + 0 + ALIGN_SPACING⟩, 0, ?_,
          le_refl 0, Or.inl rfl, by dsimp only; rw [hAS]; linarith, ?_⟩
        · simp only [placeLoop, placeStep]
          try dsimp only
          rw [if_pos hbr]
          try dsimp only
          rw [if_pos hw]
        · intro pv' _ _ _
          exact ⟨rfl, by dsimp only; rw [hAS]; linarith⟩
      · refine ⟨⟨CANVAS_PADDING, cursor.y + rowH + ALIGN_SPACING⟩, 0, ?_, le_refl 0,
          Or.inl rfl, by dsimp only; rw [hAS]; linarith, ?_⟩
        · simp only [placeLoop, placeStep]
          try dsimp only
          rw [if_pos hbr]
          try dsimp only
          rw [if_neg hw]
        · intro pv' _ _ _
          exact ⟨rfl, by dsimp only; rw [hAS]; linarith⟩
    · by_cases hw : row_limit < cursor.x + b.outer_size.x
      · refine ⟨⟨CANVAS_PADDING, cursor.y + rowH + ALIGN_SPACING⟩, 0, ?_, le_refl 0,
          Or.inl rfl, by dsimp only; rw [hAS]; linarith, ?_⟩
        · simp only [placeLoop, placeStep]
          try dsimp only
          rw [if_neg hbr]
          try dsimp only
          rw [if_pos hw]
        · intro pv' _ _ _
          exact ⟨rfl, by dsimp only; rw [hAS]; linarith⟩
      · refine ⟨cursor, rowH, ?_, hrh, Or.inr rfl, le_refl _, ?_⟩
        · simp only [placeLoop, placeStep]
          try dsimp only
          rw [if_neg hbr]
          try dsimp only
          rw [if_neg hw]
        · intro pv' hpv' hne hcx
          rw [Option.mem_some_iff] at hpv'
          exact absurd ⟨hpv' ▸ hne, hcx⟩ hbr

/-- Category separation between consecutively placed blocks: if the
categories differ, the later block sits at the left margin on a strictly
lower row. -/
def rowBreakRel (x y : ImageBlock) : Prop :=
  x.core.isGroup ≠ y.core.isGroup →
    y.core.position.x = CANVAS_PADDING ∧ x.core.position.y < y.core.position.y

theorem placeLoop_chain (row_limit : ℚ) :
    ∀ (l : List ImageBlock) (cursor : Vec2q) (rowH : ℚ) (prev : Option Bool),
      CANVAS_PADDING ≤ cursor.x → 0 ≤ rowH → (∀ b ∈ l, 0 ≤ b.core.imageSize.x) →
      List.Chain' rowBreakRel (placeLoop row_limit cursor rowH prev l) ∧
      ∀ first ∈ (placeLoop row_limit cursor rowH prev l).head?,
        cursor.y ≤ first.core.position.y ∧
        ∀ pv ∈ prev, pv ≠ first.core.isGroup → CANVAS_PADDING < cursor.x →
          first.core.position.x = CANVAS_PADDING ∧ cursor.y < first.core.position.y := by
  intro l
  induction l with
  | nil =>
    intro cursor rowH prev _ _ _
    refine ⟨List.chain'_nil, ?_⟩
    intro first hfirst
    simp only [placeLoop, placeStep, List.head?_nil] at hfirst
    cases hfirst
  | cons b rest ih =>
    intro cursor rowH prev hcx hrh hsz
    obtain ⟨pos, rh2, heq, hrh2, hposx, hposy, hclause⟩ :=
      placeLoop_cons_spec row_limit cursor rowH prev b rest hrh
    have hb0 : 0 ≤ b.core.imageSize.x := hsz b (List.mem_cons_self _ _)
    have hposx' : CANVAS_PADDING ≤ pos.x := by
      rcases hposx with h | h
      · rw [h]
      · rw [h]; exact hcx
    have hcx' : CANVAS_PADDING < pos.x + b.outer_size.x + ALIGN_SPACING := by
      simp only [ImageBlock.outer_size]
      have hBP : BLOCK_PADDING = 4 := rfl
      have hAS : ALIGN_SPACING = 24 := rfl
      rw [hBP, hAS]
      linarith
    have ihres := ih ⟨pos.x + b.outer_size.x + ALIGN_SPACING, pos.y⟩
      (max rh2 b.outer_size.y) (some b.core.isGroup) (le_of_lt hcx')
      (le_max_of_le_left hrh2) (fun x hx => hsz x (List.mem_cons_of_mem _ hx))
    rw [heq]
    constructor
    · rw [List.chain'_cons']
      refine ⟨?_, ihres.1⟩
      intro c hc hne
      obtain ⟨_, hcl⟩ := ihres.2 c hc
      exact hcl b.core.isGroup (Option.mem_some_iff.mpr rfl) hne hcx'
    · intro first hfirst
      rw [List.head?_cons, Option.mem_some_iff] at hfirst
      subst hfirst
      exact ⟨hposy, fun pv hpv hne hcxgt => hclause pv hpv hne hcxgt⟩

theorem constrain_reset_nonneg (a : ImageBlock) (mw : ℚ)
    (ha : 0 ≤ a.core.preferredImageSize.x) :
    0 ≤ (a.reset_to_preferred_size.constrain_to_width mw).core.imageSize.x := by
  unfold ImageBlock.constrain_to_width
  by_cases hkeep : a.reset_to_preferred_size.core.imageSize.x ≤ mw
  · rw [if_pos hkeep]
    exact ha
  · rw [if_neg hkeep]
    simp only [ImageBlock.core_mapCore]
    have : (1 : ℚ) ≤ max mw 1 := le_max_right _ _
    linarith

/-- C2: after `reflow` (over blocks of non-negative preferred width),
whenever two consecutively laid-out blocks differ in group/non-group
category, the later one is placed at the left margin `CANVAS_PADDING` with
a strictly larger row Y than the earlier one — a forced row break, even
when the current row still had horizontal room. -/
theorem reflow_category_separation (bm : BlockManager) (w : ℚ)
    (hw : ∀ b ∈ bm.blocks, 0 ≤ b.core.preferredImageSize.x) :
    ∀ i (h1 : i < (bm.reflow w).blocks.length) (h2 : i + 1 < (bm.reflow w).blocks.length),
      ((bm.reflow w).blocks.get ⟨i, h1⟩).core.isGroup ≠
        ((bm.reflow w).blocks.get ⟨i + 1, h2⟩).core.isGroup →
      ((bm.reflow w).blocks.get ⟨i + 1, h2⟩).core.position.x = CANVAS_PADDING ∧
      ((bm.reflow w).blocks.get ⟨i, h1⟩).core.position.y <
        ((bm.reflow w).blocks.get ⟨i + 1, h2⟩).core.position.y := by
  intro i h1 h2
  have hchain : List.Chain' rowBreakRel (bm.reflow w).blocks := by
    refine (placeLoop_chain (CANVAS_PADDING + max w MIN_CANVAS_INNER_WIDTH)
      (bm.blocks.map fun b =>
        b.reset_to_preferred_size.constrain_to_width
          (max (max w MIN_CANVAS_INNER_WIDTH - BLOCK_PADDING * 2) 1))
      ⟨CANVAS_PADDING, CANVAS_PADDING⟩ 0 none (le_refl _) (le_refl 0) ?_).1
    intro b hb
    obtain ⟨a, ha, rfl⟩ := List.mem_map.mp hb
    exact constrain_reset_nonneg a _ (hw a ha)
  rw [List.chain'_iff_get] at hchain
  exact hchain i (by omega)

/-- Manager of the C2 witness: a group block followed by a non-group block. -/
def c2BM : BlockManager :=
  ⟨[sampleBlock 1 true false ⟨0, 0⟩ ⟨160, 160⟩ 1 [] true,
      sampleBlock 2 false false ⟨0, 0⟩ ⟨100, 50⟩ 2 [] true], 2, [], []⟩

/-- The group block of `c2BM` as placed by `reflow` at inner width 400. -/
def c2G : ImageBlock := sampleBlock 1 true false ⟨32, 32⟩ ⟨160, 160⟩ 1 [] true

/-- The non-group block of `c2BM` as placed by `reflow` at inner width 400:
on a fresh row below the group row despite ample horizontal room. -/
def c2N : ImageBlock := sampleBlock 2 false false ⟨32, 224⟩ ⟨100, 50⟩ 2 [] true

theorem c2_eval : (BlockManager.reflow c2BM 400).blocks = [c2G, c2N] := by
  norm_num [BlockManager.reflow, c2BM, c2G, c2N, sampleBlock, placeLoop, placeStep,
    ImageBlock.reset_to_preferred_size, ImageBlock.constrain_to_width, ImageBlock.outer_size,
    ImageBlock.withPosition, ImageBlock.mapCore, CANVAS_PADDING, MIN_CANVAS_INNER_WIDTH,
    MIN_BLOCK_SIZE, BLOCK_PADDING, ALIGN_SPACING]

/-- Witness for C2 at `c2BM` reflowed at inner width 400: the non-group
block following the group block starts a new row at the left margin. -/
theorem reflow_category_separation_witness :
    ((BlockManager.reflow c2BM 400).blocks.get
        ⟨1, by rw [c2_eval]; norm_num⟩).core.position.x = CANVAS_PADDING ∧
    ((BlockManager.reflow c2BM 400).blocks.get
        ⟨0, by rw [c2_eval]; norm_num⟩).core.position.y <
      ((BlockManager.reflow c2BM 400).blocks.get
        ⟨1, by rw [c2_eval]; norm_num⟩).core.position.y :=
  reflow_category_separation c2BM 400
    (by intro b hb; simp only [c2BM] at hb; fin_cases hb <;> norm_num [sampleBlock]) 0
    (by rw [c2_eval]; norm_num) (by rw [c2_eval]; norm_num)
    (by simp only [List.get_eq_getElem, c2_eval]; simp [c2G, c2N, sampleBlock])

/-! ### C9: reflow idempotence -/

theorem withPosition_withPosition (b : ImageBlock) (p q : Vec2q) :
    (b.withPosition p).withPosition q = b.withPosition q := by
  cases b
  rfl

theorem placeStep_withPosition (row_limit : ℚ) (cursor : Vec2q) (rowH : ℚ)
    (prev : Option Bool) (b : ImageBlock) (p : Vec2q) :
    placeStep row_limit cursor rowH prev (b.withPosition p) =
      placeStep row_limit cursor rowH prev b := by
  cases b
  rfl

theorem outer_size_withPosition' (b : ImageBlock) (p : Vec2q) :
    (b.withPosition p).outer_size = b.outer_size := rfl

theorem isGroup_withPosition (b : ImageBlock) (p : Vec2q) :
    (b.withPosition p).core.isGroup = b.core.isGroup := rfl

/-- Restoring the preferred size and re-constraining is idempotent: the
second pass recomputes exactly the size the first pass produced. -/
theorem constrain_reset_idem (b : ImageBlock) (mw : ℚ) :
    (b.reset_to_preferred_size.constrain_to_width mw).reset_to_preferred_size.constrain_to_width
        mw =
      b.reset_to_preferred_size.constrain_to_width mw := by
  cases b with
  | mk c cs =>
    simp only [ImageBlock.reset_to_preferred_size, ImageBlock.constrain_to_width,
      ImageBlock.mapCore, ImageBlock.core_mk, ImageBlock.children_mk]
    by_cases h : c.preferredImageSize.x ≤ mw
    · rw [if_pos h]
      simp only [ImageBlock.core_mk, ImageBlock.children_mk]
      rw [if_pos h]
    · rw [if_neg h]
      simp only [ImageBlock.core_mk, ImageBlock.children_mk]
      rw [if_neg h]

/-- Sizing commutes with placement: the constrained size depends only on the
preferred size and aspect ratio, which placement does not touch. -/
theorem constrain_reset_withPosition (b : ImageBlock) (p : Vec2q) (mw : ℚ) :
    (b.withPosition p).reset_to_preferred_size.constrain_to_width mw =
      (b.reset_to_preferred_size.constrain_to_width mw).withPosition p := by
  cases b with
  | mk c cs =>
    simp only [ImageBlock.withPosition, ImageBlock.reset_to_preferred_size,
      ImageBlock.constrain_to_width, ImageBlock.mapCore, ImageBlock.core_mk,
      ImageBlock.children_mk]
    by_cases h : c.preferredImageSize.x ≤ mw
    · rw [if_pos h, if_pos h]
      rfl
    · rw [if_neg h, if_neg h]
      rfl

/-- Every block placed by `placeLoop` is a block of the input list with only
its position rewritten. -/
theorem placeLoop_shape (row_limit : ℚ) :
    ∀ (l : List ImageBlock) (cursor : Vec2q) (rowH : ℚ) (prev : Option Bool),
      ∀ placed ∈ placeLoop row_limit cursor rowH prev l,
        ∃ b ∈ l, ∃ pos, placed = b.withPosition pos := by
  intro l
  induction l with
  | nil =>
    intro cursor rowH prev placed hplaced
    simp only [placeLoop, List.not_mem_nil] at hplaced
  | cons b rest ih =>
    intro cursor rowH prev placed hplaced
    simp only [placeLoop] at hplaced
    rcases List.mem_cons.mp hplaced with hhead | htail
    · exact ⟨b, List.mem_cons_self _ _, _, hhead⟩
    · obtain ⟨a, ha, pos, hpos⟩ := ih _ _ _ placed htail
      exact ⟨a, List.mem_cons_of_mem _ ha, pos, hpos⟩

/-- `placeLoop` is idempotent from any starting state: re-running it over
its own output recomputes identical positions. -/
theorem placeLoop_idem (row_limit : ℚ) :
    ∀ (l : List ImageBlock) (cursor : Vec2q) (rowH : ℚ) (prev : Option Bool),
      placeLoop row_limit cursor rowH prev (placeLoop row_limit cursor rowH prev l) =
        placeLoop row_limit cursor rowH prev l := by
  intro l
  induction l with
  | nil => intro _ _ _; rfl
  | cons b rest ih =>
    intro cursor rowH prev
    conv_lhs => rw [placeLoop]
    rw [placeLoop]
    rw [placeStep_withPosition, withPosition_withPosition, outer_size_withPosition',
      isGroup_withPosition]
    rw [ih]
    conv_rhs => rw [placeLoop]

/-- C9: `reflow` is idempotent — a second `reflow` with the same
`inner_width` restores each block's preferred size, recomputes the same
constrained sizes, and therefore reproduces exactly the same positions. -/
theorem reflow_idempotent (bm : BlockManager) (w : ℚ) :
    (bm.reflow w).reflow w = bm.reflow w := by
  have hfix : ∀ x ∈ placeLoop (CANVAS_PADDING + max w MIN_CANVAS_INNER_WIDTH)
      ⟨CANVAS_PADDING, CANVAS_PADDING⟩ 0 none
      (bm.blocks.map fun b =>
        b.reset_to_preferred_size.constrain_to_width
          (max (max w MIN_CANVAS_INNER_WIDTH - BLOCK_PADDING * 2) 1)),
      x.reset_to_preferred_size.constrain_to_width
          (max (max w MIN_CANVAS_INNER_WIDTH - BLOCK_PADDING * 2) 1) = x := by
    intro x hx
    obtain ⟨b, hb, pos, rfl⟩ := placeLoop_shape _ _ _ _ _ _ hx
    obtain ⟨a, _, rfl⟩ := List.mem_map.mp hb
    rw [constrain_reset_withPosition, constrain_reset_idem]
  have hmap : ((placeLoop (CANVAS_PADDING + max w MIN_CANVAS_INNER_WIDTH)
      ⟨CANVAS_PADDING, CANVAS_PADDING⟩ 0 none
      (bm.blocks.map fun b =>
        b.reset_to_preferred_size.constrain_to_width
          (max (max w MIN_CANVAS_INNER_WIDTH - BLOCK_PADDING * 2) 1))).map fun b =>
        b.reset_to_preferred_size.constrain_to_width
          (max (max w MIN_CANVAS_INNER_WIDTH - BLOCK_PADDING * 2) 1)) =
      placeLoop (CANVAS_PADDING + max w MIN_CANVAS_INNER_WIDTH)
        ⟨CANVAS_PADDING, CANVAS_PADDING⟩ 0 none
        (bm.blocks.map fun b =>
          b.reset_to_preferred_size.constrain_to_width
            (max (max w MIN_CANVAS_INNER_WIDTH - BLOCK_PADDING * 2) 1)) := by
    rw [List.map_congr_left hfix]
    simp
  simp only [BlockManager.reflow]
  congr 1
  rw [hmap]
  exact placeLoop_idem _ _ _ _ _

end MaBlocks
